import Mathlib

/-!
Shallow embedding of the streak/analytics engine of the habit-tracking
backend (routes/analytics.ts, routes/checkins.ts, routes/ai.ts), together
with theorems settling the specification claims about it.

Dates are modelled as integer day numbers (days since 1970-01-01, the
value `new Date(dateString).getTime() / 86400000` takes for the naive UTC
calendar dates the system uses throughout).
-/

/-- A check-in row as the analytics code reads it: a calendar date (day
number), the completed flag, and the optional check-in time of day stored
as an (hour, minute) pair (the code destructures only the first two
components of the "HH:MM:SS" string). -/
structure DayRec where
  date : Int
  completed : Bool
  time : Option (Nat × Nat) := none
  deriving DecidableEq

/-- `checkIns.find(c => c.date === dateStr && c.completed)` — does some
record mark day `d` completed? Used by both current-streak walks
(analytics.ts:51, checkins.ts:280-288). -/
def hasCompleted (rs : List DayRec) (d : Int) : Bool :=
  rs.any (fun r => r.date == d && r.completed)

/-- The current-streak walk (`calculateStreak`, checkins.ts:273-295, and the
in-memory walk at analytics.ts:47-55): starting at `day`, walk backward one
calendar day at a time, counting days with some completed record, stopping
at the first day without one. Terminates because each counted day consumes
a distinct completed record. -/
def calculateStreak (rs : List DayRec) (day : Int) : Nat :=
  if h : hasCompleted rs day = true then 1 + calculateStreak rs (day - 1) else 0
termination_by (rs.countP (fun r => r.completed && decide (r.date ≤ day)))
decreasing_by
  simp only [hasCompleted, List.any_eq_true, Bool.and_eq_true, beq_iff_eq] at h
  obtain ⟨r, hr, hd, hc⟩ := h
  have hcount : ∀ l : List DayRec, r ∈ l →
      l.countP (fun x => x.completed && decide (x.date ≤ day - 1)) <
        l.countP (fun x => x.completed && decide (x.date ≤ day)) := by
    intro l hl
    induction l with
    | nil => cases hl
    | cons b t ih =>
      rw [List.countP_cons, List.countP_cons]
      rcases List.mem_cons.mp hl with rfl | hmem
      · have hq : (r.completed && decide (r.date ≤ day)) = true := by simp [hc, hd]
        have hp : (r.completed && decide (r.date ≤ day - 1)) = false := by
          simp only [hc, hd, Bool.true_and, decide_eq_false_iff_not]
          omega
        rw [hq, hp]
        simp only [if_true, Bool.false_eq_true, if_false, Nat.add_zero]
        have hle : t.countP (fun x => x.completed && decide (x.date ≤ day - 1)) ≤
            t.countP (fun x => x.completed && decide (x.date ≤ day)) := by
          refine List.countP_mono_left ?_
          intro x _ hx
          simp only [Bool.and_eq_true, decide_eq_true_eq] at hx ⊢
          exact ⟨hx.1, by omega⟩
        omega
      · have hlt := ih hmem
        by_cases hpb : (b.completed && decide (b.date ≤ day - 1)) = true
        · have hqb : (b.completed && decide (b.date ≤ day)) = true := by
            simp only [Bool.and_eq_true, decide_eq_true_eq] at hpb ⊢
            exact ⟨hpb.1, by omega⟩
          rw [hpb, hqb]
          omega
        · rw [Bool.eq_false_iff.mpr hpb]
          by_cases hqb : (b.completed && decide (b.date ≤ day)) = true <;> simp [hqb] <;> omega
  exact hcount rs hr

/-- Ordering of check-in rows by date, the `order('date', { ascending: true })`
the store applies before the longest-streak scans read the rows. -/
def dateLe (a b : DayRec) : Prop := a.date ≤ b.date

instance : DecidableRel dateLe := fun a b => inferInstanceAs (Decidable (a.date ≤ b.date))

instance : IsTotal DayRec dateLe := ⟨fun a b => Int.le_total a.date b.date⟩

instance : IsTrans DayRec dateLe := ⟨fun _ _ _ hab hbc => le_trans hab hbc⟩

/-- The date-ascending ordering the store returns rows in. -/
def sortByDate (rs : List DayRec) : List DayRec := rs.insertionSort dateLe

/-- One step of the gap-based longest-streak scan (checkins.ts:235-249):
state is (longestStreak, currentCount, lastDate). A gap of exactly one day
extends the running count; any other gap folds the count into the maximum
and restarts at 1; the first record starts the count at 1. -/
def gapStep (s : Nat × Nat × Option Int) (d : Int) : Nat × Nat × Option Int :=
  match s with
  | (longest, _, none) => (longest, 1, some d)
  | (longest, cnt, some p) =>
      if d - p = 1 then (longest, cnt + 1, some d)
      else (max longest cnt, 1, some d)

/-- The longest-streak computation of GET /:habitId/streak
(checkins.ts:230-251), applied to the date column of the completed-only,
date-ascending rows; the final `Math.max` folds in the last run. -/
def longestStreakScan (dates : List Int) : Nat :=
  let s := dates.foldl gapStep (0, 0, none)
  max s.1 s.2.1

/-- GET /:habitId/streak `longest_streak`: the store returns the habit's
completed rows ordered by date ascending and the gap scan runs over their
dates. -/
def streakRouteLongest (rs : List DayRec) : Nat :=
  longestStreakScan ((sortByDate (rs.filter (fun r => r.completed))).map (fun r => r.date))

/-- One step of the GET /overview longest-streak loop (analytics.ts:58-65):
a completed row extends the running count and updates the maximum, a
non-completed row resets the count to 0; calendar gaps are never consulted. -/
def runStep (s : Nat × Nat) (b : Bool) : Nat × Nat :=
  if b then (max s.1 (s.2 + 1), s.2 + 1) else (s.1, 0)

def overviewScan (flags : List Bool) : Nat := (flags.foldl runStep (0, 0)).1

/-- GET /overview `longest_streak` (analytics.ts:57-65): scans the completed
flags of all rows in date-ascending order. -/
def overviewLongestStreak (rs : List DayRec) : Nat :=
  overviewScan ((sortByDate rs).map (fun r => r.completed))

/-- Scenario-B history: completed records on days D, D+1, D+2, D+5, D+6
(with D = 100), nothing else. -/
def scenarioB : List DayRec :=
  [⟨100, true, none⟩, ⟨101, true, none⟩, ⟨102, true, none⟩,
   ⟨105, true, none⟩, ⟨106, true, none⟩]

/-- JS `Math.round` for the nonnegative values this code produces:
round half up. -/
def jsRound (x : ℚ) : Int := ⌊x + 1 / 2⌋

/-- The weekday-name array of analytics.ts:107 and ai.ts: Monday-first. -/
def dayNames : List String :=
  ["Monday", "Tuesday", "Wednesday", "Thursday", "Friday", "Saturday", "Sunday"]

/-- JS `Date.prototype.getDay` on a naive UTC calendar date: day of week
with Sunday = 0 (day 0, 1970-01-01, was a Thursday = 4). -/
def jsGetDay (d : Int) : Nat := ((d + 4) % 7).toNat

/-- `dayNames[date.getDay()]` — the label a record dated `d` is bucketed
under (analytics.ts:119, ai.ts:97). -/
def dayNameOf (d : Int) : String := dayNames.getD (jsGetDay d) "Monday"

/-- Per-weekday-label observation count accumulated by the loop at
analytics.ts:117-129: every row increments its label's total. -/
def dayStatTotal (rs : List DayRec) (name : String) : Nat :=
  (rs.filter (fun r => dayNameOf r.date == name)).length

/-- Per-weekday-label completed count: completed rows increment their
label's completed counter. -/
def dayStatCompleted (rs : List DayRec) (name : String) : Nat :=
  (rs.filter (fun r => r.completed && (dayNameOf r.date == name))).length

/-- `stats.total > 0 ? stats.completed / stats.total : 0`. -/
def ratioOf (comp total : Nat) : ℚ := if 0 < total then (comp : ℚ) / total else 0

/-- Best-day selection (analytics.ts:131-140): fold over the entries of
`dayStats` in insertion order (Monday → Sunday, the initialisation order),
keeping the first label whose ratio strictly exceeds the best so far
(initial best "Monday" at ratio 0). -/
def weeklyBestDay (rs : List DayRec) : String :=
  (dayNames.foldl
    (fun s name =>
      let r := ratioOf (dayStatCompleted rs name) (dayStatTotal rs name)
      if s.2 < r then (name, r) else s)
    ("Monday", (0 : ℚ))).1

/-- The minutes-since-midnight contribution of a row to the average
check-in time: only rows with `completed` and a recorded time contribute
(analytics.ts:121-128). -/
def timeContribution (r : DayRec) : Option Nat :=
  if r.completed then r.time.map (fun t => t.1 * 60 + t.2) else none

def checkInTimeSum (rs : List DayRec) : Nat := (rs.filterMap timeContribution).sum

def checkInTimeCount (rs : List DayRec) : Nat := (rs.filterMap timeContribution).length

/-- `avgMinutes = totalCheckInTimes > 0 ? checkInTimeSum / totalCheckInTimes : 0`. -/
def avgMinutes (rs : List DayRec) : ℚ :=
  if 0 < checkInTimeCount rs then (checkInTimeSum rs : ℚ) / checkInTimeCount rs else 0

/-- `padStart(2, '0')` on the decimal rendering of a (nonnegative) number. -/
def pad2 (n : Int) : String :=
  let s := toString n
  if s.length < 2 then "0" ++ s else s

/-- Average check-in time rendering (analytics.ts:142-146): present only
when `avgMinutes > 0`; hour is `Math.floor(avgMinutes / 60)` unpadded,
minute is `Math.round(avgMinutes % 60)` zero-padded. -/
def weeklyAvgTime (rs : List DayRec) : Option String :=
  let avg := avgMinutes rs
  let avgHours : Int := ⌊avg / 60⌋
  let avgMins : Int := jsRound (avg - 60 * ⌊avg / 60⌋)
  if 0 < avg then some (toString avgHours ++ ":" ++ pad2 avgMins) else none

/-- Consistency score (analytics.ts:148-151):
`totalDays > 0 ? Math.round((completedDays / totalDays) * 100) : 0` where
`totalDays` is the number of rows returned for the window. -/
def consistencyScore (rs : List DayRec) : Int :=
  let totalDays := rs.length
  let completedDays := (rs.filter (fun r => r.completed)).length
  if 0 < totalDays then jsRound (((completedDays : ℚ) / totalDays) * 100) else 0

/-- The claim-side formula: `round(100 * completedDays / totalObservedDays)`,
0 when nothing was observed. -/
def specConsistencyScore (rs : List DayRec) : Int :=
  let t := rs.length
  let c := (rs.filter (fun r => r.completed)).length
  if t = 0 then 0 else jsRound (100 * (c : ℚ) / t)

/-- Gregorian leap-year rule, as implemented by the JS Date the monthly
endpoint relies on. -/
def isLeap (y : Nat) : Bool := (y % 4 == 0 && y % 100 != 0) || y % 400 == 0

/-- `new Date(year, month, 0).getDate()` — the number of days in the given
1-based month (analytics.ts:179, 200). -/
def daysInMonth (y m : Nat) : Nat :=
  match m with
  | 1 => 31
  | 2 => if isLeap y then 29 else 28
  | 3 => 31
  | 4 => 30
  | 5 => 31
  | 6 => 30
  | 7 => 31
  | 8 => 31
  | 9 => 30
  | 10 => 31
  | 11 => 30
  | 12 => 31
  | _ => 30

/-- Day number (days since 1970-01-01) of the civil date (y, m, d) with m
1-based, the value JS `Date` assigns to naive UTC calendar dates. -/
def epochDay (y m d : Int) : Int :=
  let yAdj := if m ≤ 2 then y - 1 else y
  let era := (if 0 ≤ yAdj then yAdj else yAdj - 399) / 400
  let yoe := yAdj - era * 400
  let mp := (m + 9) % 12
  let doy := (153 * mp + 2) / 5 + d - 1
  let doe := yoe * 365 + yoe / 4 - yoe / 100 + doy
  era * 146097 + doe - 719468

/-- The status tag of a calendar day in the monthly view. -/
inductive MonthStatus where
  | completed
  | missed
  | future
  deriving DecidableEq

/-- Classification of one day of the month (analytics.ts:204-218): before
the habit start date or after today it is `future`; otherwise the first
row found for that date decides `completed`/`missed`, and no row means
`missed`. -/
def monthStatus (d start today : Int) (rs : List DayRec) : MonthStatus :=
  if d < start then MonthStatus.future
  else if today < d then MonthStatus.future
  else
    match rs.find? (fun r => r.date == d) with
    | some r => if r.completed then MonthStatus.completed else MonthStatus.missed
    | none => MonthStatus.missed

/-- The claim-side classifier, written from the spec sentence: future when
out of the [start, today] reach, completed when a completed record exists
on the date, missed otherwise. -/
def specStatus (d start today : Int) (rs : List DayRec) : MonthStatus :=
  if d < start ∨ today < d then MonthStatus.future
  else if hasCompleted rs d then MonthStatus.completed
  else MonthStatus.missed

/-- The calendar loop (analytics.ts:200-219): one entry per day
1..lastDay, keyed by the day's date. -/
def projectMonth (first : Int) (n : Nat) (start today : Int) (rs : List DayRec) :
    List (Int × MonthStatus) :=
  (List.range n).map
    (fun k : Nat => (first + (k : Int), monthStatus (first + (k : Int)) start today rs))

/-- GET /monthly/:year/:month calendar: project every day of the month. -/
def monthCalendar (y m : Nat) (start today : Int) (rs : List DayRec) :
    List (Int × MonthStatus) :=
  projectMonth (epochDay y m 1) (daysInMonth y m) start today rs

/-- `Math.round(x * 100) / 100` — round to 2 decimal places. -/
def jsRound2 (x : ℚ) : ℚ := (jsRound (x * 100) : ℚ) / 100

def monthCompletedDays (cal : List (Int × MonthStatus)) : Nat :=
  (cal.filter (fun p => decide (p.2 = MonthStatus.completed))).length

/-- Monthly success rate (analytics.ts:221-231): completed days over ALL
calendar days (future ones included), as a percentage rounded to 2
decimals. -/
def monthSuccessRate (cal : List (Int × MonthStatus)) : ℚ :=
  let totalDays := cal.length
  let completedDays := monthCompletedDays cal
  if 0 < totalDays then jsRound2 (((completedDays : ℚ) / totalDays) * 100) else 0

/-- `checkIn?.completed || false` for the row found at a date (ai.ts:99-100). -/
def findRecCompleted (rs : List DayRec) (d : Int) : Bool :=
  match rs.find? (fun r => r.date == d) with
  | some r => r.completed
  | none => false

/-- Lazy per-label tally of POST /weekly-insight (ai.ts:104-108): create
the label's entry on first encounter (preserving encounter order), then
bump total and, on a completed day, success. -/
def upsertCount (l : List (String × Nat × Nat)) (name : String) (c : Bool) :
    List (String × Nat × Nat) :=
  match l with
  | [] => [(name, (if c then 1 else 0), 1)]
  | (n, s, t) :: rest =>
      if n == name then (n, (if c then s + 1 else s), t + 1) :: rest
      else (n, s, t) :: upsertCount rest name c

/-- The `dayCounts` accumulation of POST /weekly-insight (ai.ts:93-109):
walk the 7 window days chronologically from `today - 6`, labelling each
through `dayNames[date.getDay()]`. -/
def buildDayCounts (rs : List DayRec) (today : Int) : List (String × Nat × Nat) :=
  (List.range 7).foldl
    (fun acc i =>
      let d := today - 6 + i
      upsertCount acc (dayNameOf d) (findRecCompleted rs d))
    []

/-- Best-day fold of ai.ts:117-122 over `Object.entries(dayCounts)` — the
entries come in first-encounter (chronological) order, strict `>`. -/
def insightBestDay (rs : List DayRec) (today : Int) : String :=
  ((buildDayCounts rs today).foldl
    (fun s p =>
      let r := ratioOf p.2.1 p.2.2
      if s.2 < r then (p.1, r) else s)
    ("Monday", (0 : ℚ))).1

/-- Worst-day fold of ai.ts:117-126, strict `<`, same entry order. -/
def insightWorstDay (rs : List DayRec) (today : Int) : String :=
  ((buildDayCounts rs today).foldl
    (fun s p =>
      let r := ratioOf p.2.1 p.2.2
      if r < s.2 then (p.1, r) else s)
    ("Monday", (1 : ℚ))).1

def lookupCount (counts : List (String × Nat × Nat)) (name : String) : Nat × Nat :=
  ((counts.find? (fun p => p.1 == name)).map (fun p => p.2)).getD (0, 0)

/-- The claim-side worst-day rule: iterate the weekday names in the fixed
Monday → Sunday order with the strict-less-than rule (a label without an
entry counts as ratio 0). -/
def specWorstDayMonSun (rs : List DayRec) (today : Int) : String :=
  (dayNames.foldl
    (fun s name =>
      let p := lookupCount (buildDayCounts rs today) name
      let r := ratioOf p.1 p.2
      if r < s.2 then (name, r) else s)
    ("Monday", (1 : ℚ))).1

/-- A stored check-in row, as POST /api/checkins reads and writes it. -/
structure StoreRec where
  habit : Nat
  date : Int
  completed : Bool
  time : Option (Nat × Nat) := none
  notes : Option String := none
  deriving DecidableEq

/-- The (habit, date) key match used by the existing-check-in lookup
(checkins.ts:33-38). -/
def isKey (h : Nat) (d : Int) (r : StoreRec) : Bool := r.habit == h && r.date == d

/-- Update the row the lookup found (the store's update-by-id, applied to
the first — under the uniqueness invariant the only — row with the key). -/
def updateFirst (p : StoreRec → Bool) (f : StoreRec → StoreRec) :
    List StoreRec → List StoreRec
  | [] => []
  | r :: rest => if p r then f r :: rest else r :: updateFirst p f rest

/-- POST /api/checkins (checkins.ts:32-70): if a row for (habit, today)
exists, update its completed flag, time and notes; otherwise insert a new
row. -/
def recordCheckIn (store : List StoreRec) (h : Nat) (today : Int)
    (completed : Bool) (time : Option (Nat × Nat)) (notes : Option String) :
    List StoreRec :=
  match store.find? (isKey h today) with
  | some _ =>
      updateFirst (isKey h today)
        (fun r => { r with completed := completed, time := time, notes := notes }) store
  | none =>
      store ++ [{ habit := h, date := today, completed := completed,
                  time := time, notes := notes }]

/-- Number of stored rows for a (habit, date) key. -/
def countKey (store : List StoreRec) (h : Nat) (d : Int) : Nat :=
  store.countP (isKey h d)

/-- The data-model invariant: at most one row per (habit, date). -/
def atMostOnePerKey (store : List StoreRec) : Prop :=
  ∀ h d, countKey store h d ≤ 1

/-- Scenario-A history: completed records on exactly today (= 20000),
today-1 and today-2, nothing earlier. -/
def scenarioA : List DayRec :=
  [⟨20000, true, none⟩, ⟨19999, true, none⟩, ⟨19998, true, none⟩]

/-- The actual weekday name of a date in the Monday-first table: index
`(getDay + 6) % 7` is the Monday-first position of the weekday whose
JS Sunday-first number is `getDay`. -/
def actualWeekdayName (d : Int) : String := dayNames.getD ((jsGetDay d + 6) % 7) "Monday"

/-- Per-actual-weekday counts, as the claim's "weekday" reads. -/
def specDayStatTotal (rs : List DayRec) (name : String) : Nat :=
  (rs.filter (fun r => actualWeekdayName r.date == name)).length

def specDayStatCompleted (rs : List DayRec) (name : String) : Nat :=
  (rs.filter (fun r => r.completed && (actualWeekdayName r.date == name))).length

/-- The claim-side best-day rule: highest completed/total ratio over the
actual weekdays, ties to the first in Monday → Sunday order, zero
observations counting as ratio 0. -/
def specBestDay (rs : List DayRec) : String :=
  (dayNames.foldl
    (fun s name =>
      let r := ratioOf (specDayStatCompleted rs name) (specDayStatTotal rs name)
      if s.2 < r then (name, r) else s)
    ("Monday", (0 : ℚ))).1

/-- Scenario-C window: completed records on 2025-09-01 (a Monday),
2025-09-02 (Tuesday) and 2025-09-03 (Wednesday), no other rows. -/
def scenarioC : List DayRec :=
  [⟨epochDay 2025 9 1, true, none⟩, ⟨epochDay 2025 9 2, true, none⟩,
   ⟨epochDay 2025 9 3, true, none⟩]

/-- A single completed check-in recorded exactly at midnight (00:00). -/
def scenarioMidnight : List DayRec := [⟨20000, true, some (0, 0)⟩]


/-- Insight window records: completed on 2025-09-02 through 2025-09-06,
no row on 2025-09-01 (a Monday) or 2025-09-07 (the Sunday "today"). -/
def scenarioInsight : List DayRec :=
  [⟨epochDay 2025 9 2, true, none⟩, ⟨epochDay 2025 9 3, true, none⟩,
   ⟨epochDay 2025 9 4, true, none⟩, ⟨epochDay 2025 9 5, true, none⟩,
   ⟨epochDay 2025 9 6, true, none⟩]

def insightToday : Int := epochDay 2025 9 7

/-- The dates `d, d+1, …, d+n-1`: a block of consecutive calendar days. -/
def consecDates (d : Int) (n : Nat) : List Int :=
  (List.range n).map (fun i : Nat => d + (i : Int))

/-- Date-interval membership test used to carve the current-streak block
out of a sorted history. -/
def datePred (lo hi : Int) (r : DayRec) : Bool :=
  decide (lo ≤ r.date) && decide (r.date ≤ hi)

lemma exists_of_hasCompleted {rs : List DayRec} {d : Int}
    (h : hasCompleted rs d = true) : ∃ r ∈ rs, r.date = d ∧ r.completed = true := by
  simp only [hasCompleted, List.any_eq_true, Bool.and_eq_true, beq_iff_eq] at h
  obtain ⟨r, hr, hd, hc⟩ := h
  exact ⟨r, hr, hd, hc⟩

lemma hasCompleted_of_exists {rs : List DayRec} {d : Int}
    (h : ∃ r ∈ rs, r.date = d ∧ r.completed = true) : hasCompleted rs d = true := by
  obtain ⟨r, hr, hd, hc⟩ := h
  simp only [hasCompleted, List.any_eq_true, Bool.and_eq_true, beq_iff_eq]
  exact ⟨r, hr, hd, hc⟩

lemma calculateStreak_eq_zero {rs : List DayRec} {day : Int}
    (h : hasCompleted rs day = false) : calculateStreak rs day = 0 := by
  rw [calculateStreak]
  simp [h]

lemma calculateStreak_eq_succ {rs : List DayRec} {day : Int}
    (h : hasCompleted rs day = true) :
    calculateStreak rs day = 1 + calculateStreak rs (day - 1) := by
  rw [calculateStreak]
  simp [h]

/-- Backward walk characterisation: if the `k` days `day, day-1, …, day-k+1`
all have a completed record and day `day-k` has none, the walk counts
exactly `k`. -/
lemma calculateStreak_spec (rs : List DayRec) :
    ∀ (k : Nat) (day : Int),
      (∀ i : Nat, i < k → hasCompleted rs (day - i) = true) →
      hasCompleted rs (day - k) = false →
      calculateStreak rs day = k := by
  intro k
  induction k with
  | zero =>
    intro day _ hstop
    simp only [Nat.cast_zero, sub_zero] at hstop
    exact calculateStreak_eq_zero hstop
  | succ k ih =>
    intro day hall hstop
    have h0 : hasCompleted rs day = true := by
      have := hall 0 (Nat.succ_pos k)
      simpa using this
    rw [calculateStreak_eq_succ h0]
    have : calculateStreak rs (day - 1) = k := by
      refine ih (day - 1) ?_ ?_
      · intro i hi
        have := hall (i + 1) (by omega)
        have he : day - (↑(i + 1) : Int) = day - 1 - i := by push_cast; ring
        rwa [he] at this
      · have he : day - (↑(k + 1) : Int) = day - 1 - k := by push_cast; ring
        rwa [he] at hstop
    omega

/-- Every day the walk counts has a completed record: for `i < calculateStreak rs day`,
day `day - i` is completed. -/
lemma hasCompleted_of_lt_calculateStreak (rs : List DayRec) :
    ∀ (i : Nat) (day : Int), i < calculateStreak rs day →
      hasCompleted rs (day - i) = true := by
  intro i
  induction i with
  | zero =>
    intro day hi
    by_cases h : hasCompleted rs day = true
    · simpa using h
    · rw [calculateStreak_eq_zero (Bool.eq_false_iff.mpr h)] at hi; omega
  | succ i ih =>
    intro day hi
    by_cases h : hasCompleted rs day = true
    · rw [calculateStreak_eq_succ h] at hi
      have := ih (day - 1) (by omega)
      have he : day - 1 - (i : Int) = day - (↑(i + 1) : Int) := by push_cast; ring
      rwa [he] at this
    · rw [calculateStreak_eq_zero (Bool.eq_false_iff.mpr h)] at hi; omega

example : streakRouteLongest scenarioB = 3 := by decide
example : overviewLongestStreak scenarioB = 5 := by decide

example : consistencyScore [⟨0, true, none⟩, ⟨1, false, none⟩] = 50 := by
  norm_num [consistencyScore, jsRound]

example : epochDay 1970 1 1 = 0 := by decide
example : epochDay 2000 3 1 = 11017 := by decide
example : jsGetDay (epochDay 2025 9 1) = 1 := by decide

/-- C1: the claim reads the longest streak as the gap-based scan (1-day
gap extends, anything else resets) at both code sites, with
[D, D+1, D+2, D+5, D+6] scoring 3. The GET /overview site refutes it: its
scan never consults dates and only resets on a completed=false row, so the
all-completed gapped history scores 5, not 3. -/
theorem C1_counterexample_overview_ignores_gaps :
    overviewLongestStreak scenarioB = 5 ∧ overviewLongestStreak scenarioB ≠ 3 := by
  decide

/-- C1 (amended): the gap-based description is the GET /:habitId/streak
computation, where [D, D+1, D+2, D+5, D+6] (D = 100) indeed scores 3; the
GET /overview longest streak scans completed flags only and scores the
same history 5. -/
theorem C1_gap_scan_is_streak_route :
    streakRouteLongest scenarioB = 3 ∧ overviewLongestStreak scenarioB = 5 := by
  decide

/-- C2: the current streak counts consecutive calendar days walking
backward from today that each have a completed record, stopping at the
first day with none; in particular today itself must be completed (the
k = 0 case) and a history completed on exactly today, today-1, today-2
gives 3 (the witness). -/
theorem C2_current_streak_backward_walk (rs : List DayRec) (today : Int) (k : Nat)
    (hall : ∀ i : Nat, i < k → hasCompleted rs (today - i) = true)
    (hstop : hasCompleted rs (today - k) = false) :
    calculateStreak rs today = k :=
  calculateStreak_spec rs k today hall hstop

theorem C2_witness :
    ((∀ i : Nat, i < 3 → hasCompleted scenarioA (20000 - (i : Int)) = true) ∧
      hasCompleted scenarioA (20000 - ((3 : Nat) : Int)) = false) ∧
    calculateStreak scenarioA 20000 = 3 :=
  ⟨⟨by decide, by decide⟩,
    C2_current_streak_backward_walk scenarioA 20000 3 (by decide) (by decide)⟩

/-- C3: with completions on actual Monday–Wednesday only, the endpoint
returns best_day "Tuesday", not the claimed "Monday": `dayNames` is
Monday-first but `getDay()` is Sunday-based, so `dayNames[date.getDay()]`
labels every date one weekday ahead (2025-09-01 is a Monday, getDay 1,
labelled "Tuesday"). The claim-side rule over the actual weekdays does
give "Monday". -/
theorem C3_best_day_weekday_shift :
    weeklyBestDay scenarioC = "Tuesday" ∧
    specBestDay scenarioC = "Monday" ∧
    jsGetDay (epochDay 2025 9 1) = 1 ∧
    dayNameOf (epochDay 2025 9 1) = "Tuesday" ∧
    actualWeekdayName (epochDay 2025 9 1) = "Monday" := by
  refine ⟨?_, ?_, by decide, by decide, by decide⟩
  · have h : dayStatCompleted scenarioC "Monday" = 0 ∧ dayStatTotal scenarioC "Monday" = 0 ∧
        dayStatCompleted scenarioC "Tuesday" = 1 ∧ dayStatTotal scenarioC "Tuesday" = 1 ∧
        dayStatCompleted scenarioC "Wednesday" = 1 ∧ dayStatTotal scenarioC "Wednesday" = 1 ∧
        dayStatCompleted scenarioC "Thursday" = 1 ∧ dayStatTotal scenarioC "Thursday" = 1 ∧
        dayStatCompleted scenarioC "Friday" = 0 ∧ dayStatTotal scenarioC "Friday" = 0 ∧
        dayStatCompleted scenarioC "Saturday" = 0 ∧ dayStatTotal scenarioC "Saturday" = 0 ∧
        dayStatCompleted scenarioC "Sunday" = 0 ∧ dayStatTotal scenarioC "Sunday" = 0 := by
      decide
    obtain ⟨a1, a2, a3, a4, a5, a6, a7, a8, a9, a10, a11, a12, a13, a14⟩ := h
    simp only [weeklyBestDay, dayNames, List.foldl, a1, a2, a3, a4, a5, a6, a7, a8, a9, a10,
      a11, a12, a13, a14]
    norm_num [ratioOf]
  · have h : specDayStatCompleted scenarioC "Monday" = 1 ∧ specDayStatTotal scenarioC "Monday" = 1 ∧
        specDayStatCompleted scenarioC "Tuesday" = 1 ∧ specDayStatTotal scenarioC "Tuesday" = 1 ∧
        specDayStatCompleted scenarioC "Wednesday" = 1 ∧ specDayStatTotal scenarioC "Wednesday" = 1 ∧
        specDayStatCompleted scenarioC "Thursday" = 0 ∧ specDayStatTotal scenarioC "Thursday" = 0 ∧
        specDayStatCompleted scenarioC "Friday" = 0 ∧ specDayStatTotal scenarioC "Friday" = 0 ∧
        specDayStatCompleted scenarioC "Saturday" = 0 ∧ specDayStatTotal scenarioC "Saturday" = 0 ∧
        specDayStatCompleted scenarioC "Sunday" = 0 ∧ specDayStatTotal scenarioC "Sunday" = 0 := by
      decide
    obtain ⟨a1, a2, a3, a4, a5, a6, a7, a8, a9, a10, a11, a12, a13, a14⟩ := h
    simp only [specBestDay, dayNames, List.foldl, a1, a2, a3, a4, a5, a6, a7, a8, a9, a10,
      a11, a12, a13, a14]
    norm_num [ratioOf]

lemma consistencyScore_scenarioC : consistencyScore scenarioC = 100 := by
  have h : (scenarioC.filter (fun r => r.completed)).length = 3 ∧ scenarioC.length = 3 := by
    decide
  simp only [consistencyScore, h.1, h.2]
  norm_num [jsRound]

/-- C5: the claim instantiates the consistency formula on scenario C as
round(100·3/7) = 43, but `totalDays` is the number of rows returned for
the window, and scenario C has only the 3 completed rows — the code
scores it round(100·3/3) = 100. -/
theorem C5_counterexample_scenario :
    consistencyScore scenarioC = 100 ∧ consistencyScore scenarioC ≠ 43 :=
  ⟨consistencyScore_scenarioC, by rw [consistencyScore_scenarioC]; decide⟩

/-- C5 (amended): the score is round(100 · completedDays / totalObservedDays)
with totalObservedDays the number of days that have a record (0 observed
days scoring 0), it always lies in [0, 100], and on scenario C (3 recorded
days, all completed) it is 100, not 43. -/
theorem C5_consistency_score_formula :
    (∀ rs : List DayRec,
        consistencyScore rs = specConsistencyScore rs ∧
        0 ≤ consistencyScore rs ∧ consistencyScore rs ≤ 100) ∧
    consistencyScore scenarioC = 100 := by
  constructor
  · intro rs
    by_cases ht : rs.length = 0
    · simp [consistencyScore, specConsistencyScore, ht]
    · have ht' : 0 < rs.length := Nat.pos_of_ne_zero ht
      have hcle : ((rs.filter (fun r => r.completed)).length : ℚ) ≤ (rs.length : ℚ) := by
        exact_mod_cast List.length_filter_le _ rs
      have htQ : (0 : ℚ) < (rs.length : ℚ) := by exact_mod_cast ht'
      have hcnn : (0 : ℚ) ≤ ((rs.filter (fun r => r.completed)).length : ℚ) := by positivity
      refine ⟨?_, ?_, ?_⟩
      · simp only [consistencyScore, specConsistencyScore, if_pos ht', if_neg ht]
        congr 1
        ring
      · simp only [consistencyScore, if_pos ht', jsRound]
        refine Int.le_floor.mpr ?_
        push_cast
        have : (0 : ℚ) ≤ ((rs.filter (fun r => r.completed)).length : ℚ) / (rs.length : ℚ) * 100 :=
          by positivity
        linarith
      · simp only [consistencyScore, if_pos ht', jsRound]
        have hx : ((rs.filter (fun r => r.completed)).length : ℚ) / (rs.length : ℚ) * 100 ≤ 100 := by
          rw [div_mul_eq_mul_div, div_le_iff₀ htQ]
          nlinarith
        have hfl : ⌊((rs.filter (fun r => r.completed)).length : ℚ) / (rs.length : ℚ) * 100 + 1 / 2⌋
            < 101 := by
          refine Int.floor_lt.mpr ?_
          push_cast
          linarith
        omega
  · exact consistencyScore_scenarioC

/-- C6: a qualifying day exists (completed with a recorded time), yet the
average time is absent: the presence test is `avgMinutes > 0`, and a lone
midnight check-in averages to 0 minutes. -/
theorem C6_counterexample_midnight :
    (∃ r ∈ scenarioMidnight, r.completed = true ∧ r.time.isSome = true) ∧
    weeklyAvgTime scenarioMidnight = none := by
  refine ⟨by decide, ?_⟩
  norm_num [weeklyAvgTime, avgMinutes, checkInTimeSum, checkInTimeCount, timeContribution,
    scenarioMidnight, List.filterMap]

lemma checkInTimeCount_eq_zero_iff (rs : List DayRec) :
    checkInTimeCount rs = 0 ↔ rs.filterMap timeContribution = [] := by
  simp [checkInTimeCount, List.length_eq_zero]

/-- C6 (amended): the average check-in time is present iff some day in the
window is completed, has a recorded time, and that time is strictly after
midnight — equivalently the summed minutes are positive; a window whose
only qualifying times are 00:00 renders no average. -/
theorem C6_avg_time_presence (rs : List DayRec) :
    (weeklyAvgTime rs).isSome = true ↔
      ∃ r ∈ rs, r.completed = true ∧
        ∃ hm : Nat × Nat, r.time = some hm ∧ 0 < hm.1 * 60 + hm.2 := by
  have h1 : (weeklyAvgTime rs).isSome = true ↔ 0 < avgMinutes rs := by
    by_cases h : 0 < avgMinutes rs
    · simp [weeklyAvgTime, h]
    · simp [weeklyAvgTime, h]
  have h2 : 0 < avgMinutes rs ↔ 0 < checkInTimeSum rs := by
    unfold avgMinutes
    by_cases hc : 0 < checkInTimeCount rs
    · rw [if_pos hc]
      have hcQ : (0 : ℚ) < (checkInTimeCount rs : ℚ) := by exact_mod_cast hc
      constructor
      · intro hpos
        by_contra hz
        have hz' : checkInTimeSum rs = 0 := by omega
        rw [hz'] at hpos
        norm_num at hpos
      · intro hpos
        have : (0 : ℚ) < (checkInTimeSum rs : ℚ) := by exact_mod_cast hpos
        positivity
    · rw [if_neg hc]
      have hc0 : checkInTimeCount rs = 0 := by omega
      have hnil : rs.filterMap timeContribution = [] :=
        (checkInTimeCount_eq_zero_iff rs).mp hc0
      have hs0 : checkInTimeSum rs = 0 := by simp [checkInTimeSum, hnil]
      simp [hs0]
  have h3 : 0 < checkInTimeSum rs ↔
      ∃ n ∈ rs.filterMap timeContribution, 0 < n := by
    unfold checkInTimeSum
    constructor
    · intro hpos
      by_contra hno
      push_neg at hno
      have : (rs.filterMap timeContribution).sum = 0 := by
        refine List.sum_eq_zero ?_
        intro n hn
        have := hno n hn
        omega
      omega
    · intro ⟨n, hn, hnpos⟩
      calc 0 < n := hnpos
        _ ≤ (rs.filterMap timeContribution).sum := List.single_le_sum (fun _ _ => Nat.zero_le _) n hn
  have h4 : ∀ (r : DayRec) (n : Nat), timeContribution r = some n ↔
      r.completed = true ∧ ∃ hm : Nat × Nat, r.time = some hm ∧ n = hm.1 * 60 + hm.2 := by
    intro r n
    unfold timeContribution
    by_cases hcom : r.completed = true
    · simp only [hcom, if_true, true_and]
      rw [Option.map_eq_some']
      constructor
      · intro ⟨a, ha, hfa⟩
        exact ⟨a, ha, hfa.symm⟩
      · intro ⟨a, ha, hfa⟩
        exact ⟨a, ha, hfa.symm⟩
    · simp [hcom]
  rw [h1, h2, h3]
  constructor
  · intro ⟨n, hn, hnpos⟩
    obtain ⟨r, hr, hcontrib⟩ := List.mem_filterMap.mp hn
    obtain ⟨hcom, hm, hhm, hval⟩ := (h4 r n).mp hcontrib
    exact ⟨r, hr, hcom, hm, hhm, by omega⟩
  · intro ⟨r, hr, hcom, hm, hhm, hpos⟩
    refine ⟨hm.1 * 60 + hm.2, ?_, hpos⟩
    exact List.mem_filterMap.mpr ⟨r, hr, (h4 r _).mpr ⟨hcom, hm, hhm, rfl⟩⟩

lemma date_inj_of_nodup {rs : List DayRec} (hnd : (rs.map (fun r => r.date)).Nodup)
    {a b : DayRec} (ha : a ∈ rs) (hb : b ∈ rs) (hd : a.date = b.date) : a = b :=
  List.inj_on_of_nodup_map hnd ha hb hd

/-- Under the one-record-per-date invariant the code's first-found-row
classification agrees with the claim's an-exists-completed-record
classification. -/
lemma monthStatus_eq_spec (d start today : Int) (rs : List DayRec)
    (hnd : (rs.map (fun r => r.date)).Nodup) :
    monthStatus d start today rs = specStatus d start today rs := by
  unfold monthStatus specStatus
  by_cases h1 : d < start
  · simp [h1]
  by_cases h2 : today < d
  · simp [h1, h2]
  simp only [if_neg h1, if_neg h2, if_neg (by tauto : ¬(d < start ∨ today < d))]
  cases hfind : rs.find? (fun r => r.date == d) with
  | some r =>
    have hr : r ∈ rs := List.mem_of_find?_eq_some hfind
    have hrd : r.date = d := by
      have := List.find?_some hfind
      simpa using this
    by_cases hc : r.completed = true
    · have hhc : hasCompleted rs d = true := hasCompleted_of_exists ⟨r, hr, hrd, hc⟩
      simp [hc, hhc]
    · have hcf : r.completed = false := Bool.eq_false_iff.mpr hc
      have hhc : hasCompleted rs d = false := by
        cases hht : hasCompleted rs d with
        | false => rfl
        | true =>
          obtain ⟨r2, hr2, hr2d, hr2c⟩ := exists_of_hasCompleted hht
          have hre : r2 = r := date_inj_of_nodup hnd hr2 hr (by rw [hr2d, hrd])
          rw [hre, hcf] at hr2c
          exact absurd hr2c Bool.false_ne_true
      simp [hcf, hhc]
  | none =>
    have hhc : hasCompleted rs d = false := by
      cases hht : hasCompleted rs d with
      | false => rfl
      | true =>
        obtain ⟨r2, hr2, hr2d, _⟩ := exists_of_hasCompleted hht
        have := List.find?_eq_none.mp hfind r2 hr2
        simp [hr2d] at this
    simp [hhc]

/-- C4: the month calendar lists every date of the (year, month) exactly
once — its keys are the day numbers of days 1..lastDay in order, with no
duplicates — and each is tagged with the single status given by the
claimed rule: `future` outside [habit start, today], else `completed`
exactly when a completed record exists on the date, else `missed` (no
record and a completed=false record alike). -/
theorem C4_month_calendar_complete (y m : Nat) (start today : Int) (rs : List DayRec)
    (hnd : (rs.map (fun r => r.date)).Nodup) :
    (monthCalendar y m start today rs).map Prod.fst =
      (List.range (daysInMonth y m)).map (fun k : Nat => epochDay y m 1 + (k : Int)) ∧
    ((monthCalendar y m start today rs).map Prod.fst).Nodup ∧
    ∀ p ∈ monthCalendar y m start today rs, p.2 = specStatus p.1 start today rs := by
  have hkeys : (monthCalendar y m start today rs).map Prod.fst =
      (List.range (daysInMonth y m)).map (fun k : Nat => epochDay y m 1 + (k : Int)) := by
    simp [monthCalendar, projectMonth, List.map_map, Function.comp]
  refine ⟨hkeys, ?_, ?_⟩
  · rw [hkeys]
    refine (List.nodup_range (daysInMonth y m)).map ?_
    intro i j hij
    have h2 : (i : Int) = j := add_left_cancel hij
    exact_mod_cast h2
  · intro p hp
    simp only [monthCalendar, projectMonth, List.mem_map, List.mem_range] at hp
    obtain ⟨k, _, rfl⟩ := hp
    exact monthStatus_eq_spec _ start today rs hnd

/-- Scenario E concretised: September 2025, habit started Sep 10, today
Sep 20, no check-ins at all. -/
theorem C4_witness :
    (([] : List DayRec).map (fun r => r.date)).Nodup ∧
    ((monthCalendar 2025 9 (epochDay 2025 9 10) (epochDay 2025 9 20) []).map Prod.fst =
        (List.range (daysInMonth 2025 9)).map (fun k : Nat => epochDay 2025 9 1 + (k : Int)) ∧
      ((monthCalendar 2025 9 (epochDay 2025 9 10) (epochDay 2025 9 20) []).map Prod.fst).Nodup ∧
      ∀ p ∈ monthCalendar 2025 9 (epochDay 2025 9 10) (epochDay 2025 9 20) [],
        p.2 = specStatus p.1 (epochDay 2025 9 10) (epochDay 2025 9 20) []) ∧
    (monthCalendar 2025 9 (epochDay 2025 9 10) (epochDay 2025 9 20) []).map Prod.snd =
      List.replicate 9 MonthStatus.future ++ List.replicate 11 MonthStatus.missed ++
        List.replicate 10 MonthStatus.future :=
  ⟨by decide,
    C4_month_calendar_complete 2025 9 (epochDay 2025 9 10) (epochDay 2025 9 20) [] (by decide),
    by decide⟩

lemma daysInMonth_pos (y m : Nat) : 0 < daysInMonth y m := by
  unfold daysInMonth
  split <;> first
    | omega
    | (split <;> omega)

/-- C7: the monthly success rate is completedDays / totalDays · 100 rounded
to 2 decimals, where totalDays is the full calendar length — every day of
the month, the future-tagged ones included. -/
theorem C7_month_success_rate_denominator (y m : Nat) (start today : Int) (rs : List DayRec) :
    (monthCalendar y m start today rs).length = daysInMonth y m ∧
    monthSuccessRate (monthCalendar y m start today rs) =
      jsRound2 ((monthCompletedDays (monthCalendar y m start today rs) : ℚ) /
        (daysInMonth y m : ℚ) * 100) := by
  have hlen : (monthCalendar y m start today rs).length = daysInMonth y m := by
    simp [monthCalendar, projectMonth]
  refine ⟨hlen, ?_⟩
  simp only [monthSuccessRate, hlen]
  rw [if_pos (daysInMonth_pos y m)]

lemma buildDayCounts_scenarioInsight :
    buildDayCounts scenarioInsight insightToday =
      [("Tuesday", 0, 1), ("Wednesday", 1, 1), ("Thursday", 1, 1), ("Friday", 1, 1),
       ("Saturday", 1, 1), ("Sunday", 1, 1), ("Monday", 0, 1)] := by
  decide

lemma insightWorstDay_scenarioInsight :
    insightWorstDay scenarioInsight insightToday = "Tuesday" := by
  unfold insightWorstDay
  rw [buildDayCounts_scenarioInsight]
  simp only [List.foldl]
  norm_num [ratioOf]

/-- C8: the worst-day tie-break does not follow Monday → Sunday order. The
`dayCounts` object is built lazily in chronological window order, so for a
window ending on a day labelled "Monday" the iteration starts at
"Tuesday"; with both the "Monday"- and "Tuesday"-labelled days at the
minimum ratio 0 the code picks "Tuesday" while the claimed Monday-first
rule picks "Monday". -/
theorem C8_counterexample_worst_day_order :
    insightWorstDay scenarioInsight insightToday = "Tuesday" ∧
    specWorstDayMonSun scenarioInsight insightToday = "Monday" := by
  refine ⟨insightWorstDay_scenarioInsight, ?_⟩
  have l1 : lookupCount (buildDayCounts scenarioInsight insightToday) "Monday" = (0, 1) := by
    decide
  have l2 : lookupCount (buildDayCounts scenarioInsight insightToday) "Tuesday" = (0, 1) := by
    decide
  have l3 : lookupCount (buildDayCounts scenarioInsight insightToday) "Wednesday" = (1, 1) := by
    decide
  have l4 : lookupCount (buildDayCounts scenarioInsight insightToday) "Thursday" = (1, 1) := by
    decide
  have l5 : lookupCount (buildDayCounts scenarioInsight insightToday) "Friday" = (1, 1) := by
    decide
  have l6 : lookupCount (buildDayCounts scenarioInsight insightToday) "Saturday" = (1, 1) := by
    decide
  have l7 : lookupCount (buildDayCounts scenarioInsight insightToday) "Sunday" = (1, 1) := by
    decide
  unfold specWorstDayMonSun
  simp only [dayNames, List.foldl, l1, l2, l3, l4, l5, l6, l7]
  norm_num [ratioOf]

/-- C8 (amended): best/worst weekday selection uses the ratio rule with
strict > for best and strict < for worst, but ties favour the label first
encountered in the chronological order of the 7-day window (which starts
at the label of today-6), not Monday → Sunday order: on the scenario
window the encounter order starts at "Tuesday", the worst day is
"Tuesday" and the best day is "Wednesday". -/
theorem C8_encounter_order_tie_break :
    (buildDayCounts scenarioInsight insightToday).map (fun p => p.1) =
      ["Tuesday", "Wednesday", "Thursday", "Friday", "Saturday", "Sunday", "Monday"] ∧
    insightWorstDay scenarioInsight insightToday = "Tuesday" ∧
    insightBestDay scenarioInsight insightToday = "Wednesday" := by
  refine ⟨by decide, insightWorstDay_scenarioInsight, ?_⟩
  unfold insightBestDay
  rw [buildDayCounts_scenarioInsight]
  simp only [List.foldl]
  norm_num [ratioOf]

lemma countP_updateFirst (p : StoreRec → Bool) (f : StoreRec → StoreRec) (q : StoreRec → Bool)
    (hf : ∀ r, q (f r) = q r) : ∀ l : List StoreRec, (updateFirst p f l).countP q = l.countP q := by
  intro l
  induction l with
  | nil => rfl
  | cons r rest ih =>
    unfold updateFirst
    by_cases hp : p r = true
    · rw [if_pos hp, List.countP_cons, List.countP_cons, hf r]
    · rw [if_neg hp, List.countP_cons, List.countP_cons, ih]

lemma countKey_recordCheckIn_self (store : List StoreRec) (h : Nat) (d : Int)
    (c : Bool) (ti : Option (Nat × Nat)) (no : Option String)
    (hle : countKey store h d ≤ 1) :
    countKey (recordCheckIn store h d c ti no) h d = 1 := by
  unfold recordCheckIn
  cases hf : store.find? (isKey h d) with
  | some r =>
    rw [countKey, countP_updateFirst _ _ _ (fun r => by simp [isKey])]
    have hpos : 0 < store.countP (isKey h d) :=
      List.countP_pos_iff.mpr ⟨r, List.mem_of_find?_eq_some hf, List.find?_some hf⟩
    have : store.countP (isKey h d) ≤ 1 := hle
    omega
  | none =>
    rw [countKey, List.countP_append]
    have h0 : store.countP (isKey h d) = 0 :=
      List.countP_eq_zero.mpr (fun a ha => by simpa using List.find?_eq_none.mp hf a ha)
    rw [h0]
    simp [isKey]

lemma countKey_recordCheckIn_other (store : List StoreRec) (h : Nat) (d : Int)
    (c : Bool) (ti : Option (Nat × Nat)) (no : Option String) (h2 : Nat) (d2 : Int)
    (hne : ¬(h2 = h ∧ d2 = d)) :
    countKey (recordCheckIn store h d c ti no) h2 d2 = countKey store h2 d2 := by
  unfold recordCheckIn
  cases hf : store.find? (isKey h d) with
  | some r => exact countP_updateFirst _ _ _ (fun r => by simp [isKey]) store
  | none =>
    rw [countKey, List.countP_append]
    have hx : isKey h2 d2 { habit := h, date := d, completed := c, time := ti, notes := no } =
        false := by
      by_cases hh : h2 = h
      · have hd : d2 ≠ d := fun hdd => hne ⟨hh, hdd⟩
        simp [isKey, hh, Ne.symm hd]
      · simp [isKey, Ne.symm hh]
    simp [hx, countKey]

/-- C9: recording a check-in is an upsert by (habit, date): it keeps the
at-most-one-row-per-key invariant over the whole store, and calling it
twice with the same key and payload leaves exactly one row for that key —
the second call updates rather than inserts. -/
theorem C9_checkin_upsert_idempotent (store : List StoreRec) (h : Nat) (d : Int)
    (c : Bool) (ti : Option (Nat × Nat)) (no : Option String)
    (hinv : atMostOnePerKey store) :
    atMostOnePerKey (recordCheckIn store h d c ti no) ∧
    countKey (recordCheckIn (recordCheckIn store h d c ti no) h d c ti no) h d = 1 := by
  have hself : countKey (recordCheckIn store h d c ti no) h d = 1 :=
    countKey_recordCheckIn_self store h d c ti no (hinv h d)
  constructor
  · intro h2 d2
    by_cases he : h2 = h ∧ d2 = d
    · obtain ⟨rfl, rfl⟩ := he
      rw [hself]
    · rw [countKey_recordCheckIn_other store h d c ti no h2 d2 he]
      exact hinv h2 d2
  · exact countKey_recordCheckIn_self _ h d c ti no (by simp [hself])

theorem C9_witness :
    atMostOnePerKey ([] : List StoreRec) ∧
    (atMostOnePerKey (recordCheckIn [] 1 0 true none none) ∧
      countKey (recordCheckIn (recordCheckIn [] 1 0 true none none) 1 0 true none none) 1 0 = 1) :=
  ⟨fun h d => by simp [countKey],
    C9_checkin_upsert_idempotent [] 1 0 true none none (fun h d => by simp [countKey])⟩

lemma consecDates_succ (x : Int) (n : Nat) :
    consecDates x (n + 1) = x :: consecDates (x + 1) n := by
  unfold consecDates
  rw [List.range_succ_eq_map]
  simp only [List.map_cons, List.map_map, Nat.cast_zero, add_zero]
  congr 1
  refine List.map_congr_left ?_
  intro i _
  simp only [Function.comp]
  push_cast
  ring

lemma sortByDate_perm (rs : List DayRec) : List.Perm (sortByDate rs) rs :=
  List.perm_insertionSort dateLe rs

lemma sortByDate_sorted (rs : List DayRec) : List.Sorted dateLe (sortByDate rs) :=
  List.sorted_insertionSort dateLe rs

lemma filter_eq_takeWhile_of_sorted (lo hi : Int) :
    ∀ l : List DayRec, List.Sorted dateLe l → (∀ r ∈ l, lo ≤ r.date) →
      l.filter (datePred lo hi) = l.takeWhile (fun r => decide (r.date ≤ hi)) := by
  intro l
  induction l with
  | nil => intro _ _; rfl
  | cons x xs ih =>
    intro hs hall
    rw [List.sorted_cons] at hs
    have hlox : lo ≤ x.date := hall x (List.mem_cons_self x xs)
    by_cases hhi : x.date ≤ hi
    · rw [List.filter_cons, List.takeWhile_cons]
      have hpx : datePred lo hi x = true := by simp [datePred, hlox, hhi]
      rw [hpx]
      simp only [decide_eq_true_eq, hhi, if_true]
      rw [ih hs.2 (fun r hr => hall r (List.mem_cons_of_mem x hr))]
    · rw [List.filter_cons, List.takeWhile_cons]
      have hpx : datePred lo hi x = false := by simp [datePred, hhi]
      rw [hpx]
      simp only [decide_eq_true_eq, hhi, if_false]
      refine List.filter_eq_nil_iff.mpr ?_
      intro r hr
      have hxr : x.date ≤ r.date := hs.1 r hr
      simp only [datePred, Bool.and_eq_true, decide_eq_true_eq, not_and]
      intro _
      omega

lemma filter_interval_infix (lo hi : Int) :
    ∀ l : List DayRec, List.Sorted dateLe l →
      ∃ a c, l = a ++ l.filter (datePred lo hi) ++ c := by
  intro l
  induction l with
  | nil => exact fun _ => ⟨[], [], rfl⟩
  | cons x xs ih =>
    intro hs
    have hs' := hs
    rw [List.sorted_cons] at hs'
    by_cases hlo : lo ≤ x.date
    · have hall : ∀ r ∈ x :: xs, lo ≤ r.date := by
        intro r hr
        rcases List.mem_cons.mp hr with rfl | hmem
        · exact hlo
        · exact le_trans hlo (hs'.1 r hmem)
      rw [filter_eq_takeWhile_of_sorted lo hi (x :: xs) hs hall]
      exact ⟨[], (x :: xs).dropWhile (fun r => decide (r.date ≤ hi)), by
        simp [List.takeWhile_append_dropWhile]⟩
    · have hpx : datePred lo hi x = false := by simp [datePred, hlo]
      obtain ⟨a, c, hac⟩ := ih hs'.2
      refine ⟨x :: a, c, ?_⟩
      rw [List.filter_cons, hpx]
      simp only [if_false, Bool.false_eq_true, List.cons_append]
      rw [← hac]

/-- In a date-sorted, duplicate-free history containing a record on each of
the `k` days `d..d+k-1`, the records with dates in that interval have date
column exactly `d, d+1, …, d+k-1`. -/
lemma filter_interval_dates (l : List DayRec) (hs : List.Sorted dateLe l)
    (hnd : (l.map (fun r => r.date)).Nodup) (d : Int) (k : Nat)
    (hmem : ∀ i : Nat, i < k → ∃ r ∈ l, r.date = d + (i : Int)) :
    (l.filter (datePred d (d + (k : Int) - 1))).map (fun r => r.date) = consecDates d k := by
  have hsub : (l.filter (datePred d (d + (k : Int) - 1))).Sublist l := List.filter_sublist l
  have hbd_sorted :
      List.Sorted (· ≤ ·) ((l.filter (datePred d (d + (k : Int) - 1))).map (fun r => r.date)) := by
    have hp : List.Pairwise dateLe (l.filter (datePred d (d + (k : Int) - 1))) :=
      List.Pairwise.sublist hsub hs
    exact List.pairwise_map.mpr (hp.imp (fun h => h))
  have hbd_nodup : ((l.filter (datePred d (d + (k : Int) - 1))).map (fun r => r.date)).Nodup :=
    List.Nodup.sublist (hsub.map (fun r => r.date)) hnd
  have hcd_sorted : List.Sorted (· ≤ ·) (consecDates d k) := by
    unfold consecDates
    refine List.pairwise_map.mpr ?_
    exact (List.pairwise_lt_range k).imp (fun hij => by omega)
  have hcd_nodup : (consecDates d k).Nodup := by
    unfold consecDates
    exact (List.nodup_range k).map (fun i j hij => by omega)
  have hiff : ∀ x : Int,
      x ∈ (l.filter (datePred d (d + (k : Int) - 1))).map (fun r => r.date) ↔
        x ∈ consecDates d k := by
    intro x
    constructor
    · intro hx
      obtain ⟨r, hrb, rfl⟩ := List.mem_map.mp hx
      obtain ⟨hrl, hpred⟩ := List.mem_filter.mp hrb
      simp only [datePred, Bool.and_eq_true, decide_eq_true_eq] at hpred
      unfold consecDates
      refine List.mem_map.mpr ⟨(r.date - d).toNat, List.mem_range.mpr ?_, ?_⟩
      · omega
      · omega
    · intro hx
      unfold consecDates at hx
      obtain ⟨i, hir, rfl⟩ := List.mem_map.mp hx
      rw [List.mem_range] at hir
      obtain ⟨r, hrl, hrd⟩ := hmem i hir
      refine List.mem_map.mpr ⟨r, List.mem_filter.mpr ⟨hrl, ?_⟩, hrd⟩
      simp only [datePred, Bool.and_eq_true, decide_eq_true_eq]
      omega
  have hperm := (List.perm_ext_iff_of_nodup hbd_nodup hcd_nodup).mpr hiff
  exact List.eq_of_perm_of_sorted hperm hbd_sorted hcd_sorted

lemma gapStep_first_mem (s : Nat × Nat × Option Int) (d : Int) :
    ∃ lo cnt, gapStep s d = (lo, cnt, some d) ∧ 1 ≤ cnt := by
  rcases s with ⟨lo, cnt, last⟩
  cases last with
  | none => exact ⟨lo, 1, rfl, le_refl 1⟩
  | some p =>
    by_cases h : d - p = 1
    · exact ⟨lo, cnt + 1, by simp [gapStep, h], by omega⟩
    · exact ⟨max lo cnt, 1, by simp [gapStep, h], le_refl 1⟩

lemma foldl_gapStep_consec (m : Nat) : ∀ (d : Int) (lo cnt : Nat),
    List.foldl gapStep (lo, cnt, some d) (consecDates (d + 1) m) =
      (lo, cnt + m, some (d + (m : Int))) := by
  induction m with
  | zero => intro d lo cnt; simp [consecDates]
  | succ m ih =>
    intro d lo cnt
    rw [consecDates_succ, List.foldl_cons]
    have hstep : gapStep (lo, cnt, some d) (d + 1) = (lo, cnt + 1, some (d + 1)) := by
      simp [gapStep]
    rw [hstep, ih (d + 1) lo (cnt + 1)]
    have h1 : cnt + 1 + m = cnt + (m + 1) := by omega
    have h2 : d + 1 + (m : Int) = d + ((m + 1 : Nat) : Int) := by push_cast; ring
    rw [h1, h2]

lemma foldl_gapStep_tail_ge (c : List Int) : ∀ (lo cnt : Nat) (p : Int),
    max lo cnt ≤
      (fun s : Nat × Nat × Option Int => max s.1 s.2.1)
        (List.foldl gapStep (lo, cnt, some p) c) := by
  induction c with
  | nil => intro lo cnt p; exact le_refl _
  | cons x c ih =>
    intro lo cnt p
    rw [List.foldl_cons]
    by_cases h : x - p = 1
    · have hstep : gapStep (lo, cnt, some p) x = (lo, cnt + 1, some x) := by simp [gapStep, h]
      rw [hstep]
      exact le_trans (max_le_max (le_refl lo) (by omega)) (ih lo (cnt + 1) x)
    · have hstep : gapStep (lo, cnt, some p) x = (max lo cnt, 1, some x) := by simp [gapStep, h]
      rw [hstep]
      exact le_trans (le_max_left _ _) (ih (max lo cnt) 1 x)

lemma longestStreakScan_ge_block (a c : List Int) (d : Int) (k : Nat) (hk : 1 ≤ k) :
    k ≤ longestStreakScan (a ++ consecDates d k ++ c) := by
  obtain ⟨m, rfl⟩ : ∃ m, k = m + 1 := ⟨k - 1, by omega⟩
  unfold longestStreakScan
  rw [List.foldl_append, List.foldl_append]
  obtain ⟨lo1, cnt1, hstep, hcnt1⟩ := gapStep_first_mem (List.foldl gapStep (0, 0, none) a) d
  rw [consecDates_succ, List.foldl_cons, hstep, foldl_gapStep_consec m d lo1 cnt1]
  have hge := foldl_gapStep_tail_ge c lo1 (cnt1 + m) (d + (m : Int))
  calc (m + 1 : Nat) ≤ cnt1 + m := by omega
    _ ≤ max lo1 (cnt1 + m) := le_max_right _ _
    _ ≤ _ := hge

lemma foldl_runStep_trues (m : Nat) : ∀ (lo te : Nat),
    List.foldl runStep (lo, te) (List.replicate (m + 1) true) =
      (max lo (te + (m + 1)), te + (m + 1)) := by
  induction m with
  | zero => intro lo te; simp [runStep]
  | succ m ih =>
    intro lo te
    rw [List.replicate_succ, List.foldl_cons]
    have hstep : runStep (lo, te) true = (max lo (te + 1), te + 1) := rfl
    rw [hstep, ih (max lo (te + 1)) (te + 1)]
    simp only [Prod.mk.injEq]
    constructor
    · have h1 : te + 1 ≤ te + 1 + (m + 1) := by omega
      rw [max_assoc, max_eq_right h1]
      congr 1
      omega
    · omega

lemma foldl_runStep_fst_mono (c : List Bool) : ∀ (lo te : Nat),
    lo ≤ (List.foldl runStep (lo, te) c).1 := by
  induction c with
  | nil => intro lo te; exact le_refl _
  | cons b c ih =>
    intro lo te
    rw [List.foldl_cons]
    cases b
    · rw [show runStep (lo, te) false = (lo, 0) from rfl]
      exact ih lo 0
    · rw [show runStep (lo, te) true = (max lo (te + 1), te + 1) from rfl]
      exact le_trans (le_max_left _ _) (ih _ _)

lemma overviewScan_ge_block (a c : List Bool) (k : Nat) (hk : 1 ≤ k) :
    k ≤ overviewScan (a ++ List.replicate k true ++ c) := by
  obtain ⟨m, rfl⟩ : ∃ m, k = m + 1 := ⟨k - 1, by omega⟩
  unfold overviewScan
  rw [List.foldl_append, List.foldl_append]
  rcases hs : List.foldl runStep (0, 0) a with ⟨lo, te⟩
  rw [foldl_runStep_trues m lo te]
  have hmono := foldl_runStep_fst_mono c (max lo (te + (m + 1))) (te + (m + 1))
  calc (m + 1 : Nat) ≤ max lo (te + (m + 1)) := le_trans (by omega) (le_max_right _ _)
    _ ≤ _ := hmono

lemma calculateStreak_le_streakRouteLongest (rs : List DayRec) (today : Int)
    (hnd : (rs.map (fun r => r.date)).Nodup) :
    calculateStreak rs today ≤ streakRouteLongest rs := by
  rcases Nat.eq_zero_or_pos (calculateStreak rs today) with hk0 | hkpos
  · rw [hk0]
    exact Nat.zero_le _
  · set k := calculateStreak rs today with hkdef
    set d : Int := today - k + 1 with hddef
    set l := sortByDate (rs.filter (fun r => r.completed)) with hldef
    have hsl : List.Sorted dateLe l := sortByDate_sorted _
    have hperm : List.Perm l (rs.filter (fun r => r.completed)) := sortByDate_perm _
    have hnd_l : (l.map (fun r => r.date)).Nodup := by
      have hsub : (rs.filter (fun r => r.completed)).Sublist rs := List.filter_sublist rs
      have h1 : ((rs.filter (fun r => r.completed)).map (fun r => r.date)).Nodup :=
        List.Nodup.sublist (hsub.map _) hnd
      exact ((hperm.map (fun r => r.date)).nodup_iff).mpr h1
    have hmem : ∀ i : Nat, i < k → ∃ r ∈ l, r.date = d + (i : Int) := by
      intro i hi
      have hj : k - 1 - i < k := by omega
      have hc := hasCompleted_of_lt_calculateStreak rs (k - 1 - i) today hj
      obtain ⟨r, hr, hrd, hrc⟩ := exists_of_hasCompleted hc
      refine ⟨r, (hperm.mem_iff).mpr (List.mem_filter.mpr ⟨hr, hrc⟩), ?_⟩
      rw [hrd, hddef]
      omega
    have hdates := filter_interval_dates l hsl hnd_l d k hmem
    obtain ⟨a, c, hac⟩ := filter_interval_infix d (d + (k : Int) - 1) l hsl
    have heq : streakRouteLongest rs = longestStreakScan (l.map (fun r => r.date)) := rfl
    rw [heq, hac, List.map_append, List.map_append, hdates]
    exact longestStreakScan_ge_block _ _ d k hkpos

lemma calculateStreak_le_overviewLongest (rs : List DayRec) (today : Int)
    (hnd : (rs.map (fun r => r.date)).Nodup) :
    calculateStreak rs today ≤ overviewLongestStreak rs := by
  rcases Nat.eq_zero_or_pos (calculateStreak rs today) with hk0 | hkpos
  · rw [hk0]
    exact Nat.zero_le _
  · set k := calculateStreak rs today with hkdef
    set d : Int := today - k + 1 with hddef
    set l := sortByDate rs with hldef
    have hsl : List.Sorted dateLe l := sortByDate_sorted _
    have hperm : List.Perm l rs := sortByDate_perm _
    have hnd_l : (l.map (fun r => r.date)).Nodup :=
      ((hperm.map (fun r => r.date)).nodup_iff).mpr hnd
    have hmem : ∀ i : Nat, i < k → ∃ r ∈ l, r.date = d + (i : Int) := by
      intro i hi
      have hj : k - 1 - i < k := by omega
      have hc := hasCompleted_of_lt_calculateStreak rs (k - 1 - i) today hj
      obtain ⟨r, hr, hrd, _⟩ := exists_of_hasCompleted hc
      refine ⟨r, (hperm.mem_iff).mpr hr, ?_⟩
      rw [hrd, hddef]
      omega
    have hdates := filter_interval_dates l hsl hnd_l d k hmem
    have hcomp : ∀ r ∈ l.filter (datePred d (d + (k : Int) - 1)), r.completed = true := by
      intro r hrb
      have hrl : r ∈ l := (List.mem_filter.mp hrb).1
      have hrdate : r.date ∈ consecDates d k := by
        rw [← hdates]
        exact List.mem_map_of_mem _ hrb
      obtain ⟨i, hik, hdi⟩ : ∃ i : Nat, i < k ∧ r.date = d + (i : Int) := by
        unfold consecDates at hrdate
        obtain ⟨i, hir, hei⟩ := List.mem_map.mp hrdate
        exact ⟨i, List.mem_range.mp hir, hei.symm⟩
      have hj : k - 1 - i < k := by omega
      have hc := hasCompleted_of_lt_calculateStreak rs (k - 1 - i) today hj
      obtain ⟨r2, hr2, hr2d, hr2c⟩ := exists_of_hasCompleted hc
      have hdeq : r2.date = r.date := by
        rw [hr2d, hdi]
        omega
      have hre : r2 = r := date_inj_of_nodup hnd hr2 (hperm.mem_iff.mp hrl) hdeq
      rw [← hre]
      exact hr2c
    have hlen : (l.filter (datePred d (d + (k : Int) - 1))).length = k := by
      have hmaplen := congrArg List.length hdates
      simpa [consecDates] using hmaplen
    have hrepl : (l.filter (datePred d (d + (k : Int) - 1))).map (fun r => r.completed) =
        List.replicate k true := by
      rw [List.eq_replicate_iff]
      refine ⟨by simpa using hlen, ?_⟩
      intro b hb
      obtain ⟨r, hrb, rfl⟩ := List.mem_map.mp hb
      exact hcomp r hrb
    obtain ⟨a, c, hac⟩ := filter_interval_infix d (d + (k : Int) - 1) l hsl
    have heq : overviewLongestStreak rs = overviewScan (l.map (fun r => r.completed)) := rfl
    rw [heq, hac, List.map_append, List.map_append, hrepl]
    exact overviewScan_ge_block _ _ k hkpos

/-- C10: under the at-most-one-record-per-date invariant, both longest
streaks the code computes — the gap-based scan of GET /:habitId/streak and
the flag-run scan of GET /overview — are at least the backward-walk
current streak, whatever "today" is. -/
theorem C10_longest_ge_current (rs : List DayRec) (today : Int)
    (hnd : (rs.map (fun r => r.date)).Nodup) :
    calculateStreak rs today ≤ streakRouteLongest rs ∧
    calculateStreak rs today ≤ overviewLongestStreak rs :=
  ⟨calculateStreak_le_streakRouteLongest rs today hnd,
    calculateStreak_le_overviewLongest rs today hnd⟩

theorem C10_witness :
    (scenarioA.map (fun r => r.date)).Nodup ∧
    (calculateStreak scenarioA 20000 ≤ streakRouteLongest scenarioA ∧
      calculateStreak scenarioA 20000 ≤ overviewLongestStreak scenarioA) :=
  ⟨by decide, C10_longest_ge_current scenarioA 20000 (by decide)⟩

